import Mathlib

/-!
Verification development for the tabular enrichment and duplicate-detection
engine of the product-data-enricher repository.

The enrichment engine (processData) and the fuzzy grouping of the duplicate
detector are modelled from the specification, since only their callers appear
in the available source modules. The batch merge (UploadSection.handleContinue,
processFiles) and the cross-file enhancement of duplicate results
(DuplicateDetector.scanForDuplicates) are embedded directly from the source.
-/

deriving instance DecidableEq for Except

namespace ProductEnricher

/-! ## Data model: scalar values and records -/

/-- Scalar cell value of a record: string, number, boolean, or empty (the
JavaScript null or undefined). -/
inductive Value where
  | str (s : String)
  | num (n : Int)
  | bool (b : Bool)
  | empty
deriving DecidableEq, Repr

/-- Record: an ordered association of column names to scalar values, in
column insertion order. -/
abbrev Row := List (String × Value)

/-- Lookup of a column in a record: the value of the first entry with the
given column name. -/
def rowLookup (r : Row) (col : String) : Option Value :=
  match r with
  | [] => none
  | p :: rest => if p.1 = col then some p.2 else rowLookup rest col

/-- Emptiness of a value: null or undefined, or a whitespace-only string.
Numbers and booleans are never empty. -/
def isEmptyValue : Value → Bool
  | .empty => true
  | .str s => s.toList.all (fun c => c.isWhitespace)
  | .num _ => false
  | .bool _ => false

/-- JavaScript truthiness of a scalar value. -/
def truthy : Value → Bool
  | .str s => !(s = "")
  | .num n => !(n = 0)
  | .bool b => b
  | .empty => false

/-- JavaScript String() conversion of a scalar value. -/
def jsString : Value → String
  | .str s => s
  | .num n => toString n
  | .bool b => if b then "true" else "false"
  | .empty => ""

/-! ## Abbreviation substitution

Modelled from the spec: the abbreviation-substitution primitive of the
enrichment engine (the source module utils/dataProcessors is not among the
available files). The spec: tokenize on whitespace or punctuation boundaries,
replace each token whose lowercase form matches a key of the abbreviation
table with its expansion, preserve the separators, and count one substitution
per replaced token. -/

/-- Token characters: letters and digits. Whitespace and punctuation are
token boundaries. -/
def isTokenChar (c : Char) : Bool := c.isAlphanum

/-- Segment of a tokenized string: a maximal run of token characters (a word)
or a maximal run of boundary characters (a separator). -/
inductive Seg where
  | word (cs : List Char)
  | sep (cs : List Char)
deriving DecidableEq, Repr

/-- Characters of a segment. -/
def segChars : Seg → List Char
  | .word cs => cs
  | .sep cs => cs

/-- Prepend one character to a segment list, extending the first segment when
the character is of the same kind. -/
def segCons (c : Char) : List Seg → List Seg
  | .word w :: rest =>
      if isTokenChar c then .word (c :: w) :: rest else .sep [c] :: .word w :: rest
  | .sep s :: rest =>
      if isTokenChar c then .word [c] :: .sep s :: rest else .sep (c :: s) :: rest
  | [] => if isTokenChar c then [.word [c]] else [.sep [c]]

/-- Tokenize a character list into maximal word and separator segments. -/
def tokenize (cs : List Char) : List Seg := cs.foldr segCons []

/-- Case-insensitive abbreviation lookup: the expansion of the first table
entry whose lowercase key equals the lowercase form of the word. -/
def lookupAbb (abb : List (String × String)) (w : List Char) : Option String :=
  (abb.find? (fun p => p.1.toList.map Char.toLower = w.map Char.toLower)).map (fun p => p.2)

/-- Substitute one segment: a word with a matching abbreviation key becomes
its expansion, any other segment is kept. -/
def substSeg (abb : List (String × String)) : Seg → Seg
  | .word w =>
      match lookupAbb abb w with
      | some exp => .word exp.toList
      | none => .word w
  | .sep s => .sep s

/-- Whether a segment is a word that matches an abbreviation key. -/
def isAbbrevSeg (abb : List (String × String)) : Seg → Bool
  | .word w => (lookupAbb abb w).isSome
  | .sep _ => false

/-- Substitute a segment list and count the substituted tokens. -/
def expandSegs (abb : List (String × String)) : List Seg → List Seg × Nat
  | [] => ([], 0)
  | sg :: rest =>
      let r := expandSegs abb rest
      (substSeg abb sg :: r.1, (if isAbbrevSeg abb sg then 1 else 0) + r.2)

/-- Abbreviation substitution over a whole string, returning the rewritten
string and the number of substituted tokens. -/
def expandString (abb : List (String × String)) (s : String) : String × Nat :=
  let r := expandSegs abb (tokenize s.toList)
  (String.mk ((r.1.map segChars).flatten), r.2)

/-! ## Column policies and the enrichment engine

Modelled from the spec: the ColumnPolicyEngine contract
enrich(table, policies, abbreviations) of section 4.1, called processData in
the source (the source module utils/dataProcessors is not among the available
files; its callers in pages/Index.tsx fix the signature and the stats field
names). -/

/-- Per-column action. -/
inductive Action where
  | ignore
  | analyze
  | default_all
  | default_empty
deriving DecidableEq, Repr

/-- Policy of one column: the action, the default value used by the two
default actions, and the protection flag that overrides every action. -/
structure ColumnConfig where
  action : Action
  defaultValue : String
  isProtected : Bool
deriving DecidableEq, Repr

/-- Effective policy of a column: the configured policy, or action analyze
and no protection when the column has no explicit policy. -/
def policyFor (pols : List (String × ColumnConfig)) (col : String) : ColumnConfig :=
  (((pols.find? (fun p => p.1 = col)).map (fun p => p.2)).getD
    { action := .analyze, defaultValue := "", isProtected := false })

/-- Aggregate statistics of one enrichment run. -/
structure ProcessingStats where
  camposPreenchidos : Nat
  abreviaturasCorrigidas : Nat
  camposProtegidos : Nat
  camposIgnorados : Nat
deriving DecidableEq, Repr

/-- Zeroed statistics. -/
def zeroStats : ProcessingStats :=
  { camposPreenchidos := 0, abreviaturasCorrigidas := 0, camposProtegidos := 0, camposIgnorados := 0 }

/-- Pointwise sum of statistics. -/
def addStats (a b : ProcessingStats) : ProcessingStats :=
  { camposPreenchidos := a.camposPreenchidos + b.camposPreenchidos
    abreviaturasCorrigidas := a.abreviaturasCorrigidas + b.abreviaturasCorrigidas
    camposProtegidos := a.camposProtegidos + b.camposProtegidos
    camposIgnorados := a.camposIgnorados + b.camposIgnorados }

/-- Configuration defect: a non-protected column whose action requires a
default value while the configured default value is absent or empty. -/
def invalidCfg (cfg : ColumnConfig) : Bool :=
  !cfg.isProtected
    && (decide (cfg.action = .default_all) || decide (cfg.action = .default_empty))
    && cfg.defaultValue.toList.all (fun c => c.isWhitespace)

/-- Error taxonomy of the enrichment engine. -/
inductive EnrichError where
  | invalidPolicyError
deriving DecidableEq, Repr

/-- Enrichment of one cell under one policy, following section 4.1: protected
cells are copied unchanged; ignored cells are copied unchanged; default_all
replaces the value with the default (with abbreviation substitution on the
result) and counts a fill only on an empty prior value; default_empty
replaces only empty values; analyze runs abbreviation substitution over
non-empty string values and never fabricates content for empty ones.
Returns the new value and the statistics delta of this cell. -/
def enrichCell (cfg : ColumnConfig) (abb : List (String × String)) (v : Value) :
    Value × ProcessingStats :=
  if cfg.isProtected then
    (v, { zeroStats with camposProtegidos := 1 })
  else
    match cfg.action with
    | .ignore => (v, { zeroStats with camposIgnorados := 1 })
    | .default_all =>
        let r := expandString abb cfg.defaultValue
        (.str r.1,
          { zeroStats with
            camposPreenchidos := if isEmptyValue v then 1 else 0
            abreviaturasCorrigidas := r.2 })
    | .default_empty =>
        if isEmptyValue v then
          (.str cfg.defaultValue, { zeroStats with camposPreenchidos := 1 })
        else (v, zeroStats)
    | .analyze =>
        if isEmptyValue v then (v, zeroStats)
        else
          match v with
          | .str s =>
              let r := expandString abb s
              (.str r.1, { zeroStats with abreviaturasCorrigidas := r.2 })
          | w => (w, zeroStats)

/-- Whether a column is one of the reserved batch metadata columns, which are
excluded from enrichment policy application. -/
def isMetaCol (col : String) : Bool := decide (col.toList.take 2 = "__".toList)

/-- Enriched value of one cell of a given column: metadata columns are copied
unchanged, any other column goes through enrichCell under its effective
policy. -/
def enrichValue (pols : List (String × ColumnConfig)) (abb : List (String × String))
    (col : String) (v : Value) : Value :=
  if isMetaCol col then v else (enrichCell (policyFor pols col) abb v).1

/-- Statistics delta of one cell. -/
def cellStats (pols : List (String × ColumnConfig)) (abb : List (String × String))
    (col : String) (v : Value) : ProcessingStats :=
  if isMetaCol col then zeroStats else (enrichCell (policyFor pols col) abb v).2

/-- Enrichment of one record, cell by cell, keeping the column structure. -/
def enrichRow (pols : List (String × ColumnConfig)) (abb : List (String × String))
    (r : Row) : Row :=
  r.map (fun p => (p.1, enrichValue pols abb p.1 p.2))

/-- Statistics of one record. -/
def rowStats (pols : List (String × ColumnConfig)) (abb : List (String × String))
    (r : Row) : ProcessingStats :=
  r.foldl (fun a p => addStats a (cellStats pols abb p.1 p.2)) zeroStats

/-- Modelled from the spec: the enrichment engine
enrich(table, policies, abbreviations), called processData in the source.
Configuration errors are detected up front and raised immediately as
InvalidPolicyError; otherwise every record is enriched cell by cell and the
statistics are summed. -/
def processData (tbl : List Row) (pols : List (String × ColumnConfig))
    (abb : List (String × String)) : Except EnrichError (List Row × ProcessingStats) :=
  if pols.any (fun p => invalidCfg p.2) then
    .error .invalidPolicyError
  else
    .ok (tbl.map (enrichRow pols abb),
      tbl.foldl (fun a r => addStats a (rowStats pols abb r)) zeroStats)

/-! ## Batch merge of uploaded files

Embedded from src/components/UploadSection.tsx: the capacity constants, the
per-file row cap of processFiles, and the merge of handleContinue that
normalizes every record over the union of all columns and stamps the batch
metadata columns. -/

/-- Maximal number of rows kept per parsed file (MAX_ITEMS_PER_FILE). -/
def MAX_ITEMS_PER_FILE : Nat := 1000

/-- Maximal number of files per batch (MAX_FILES). -/
def MAX_FILES : Nat := 20

/-- Maximal number of merged records (MAX_TOTAL_ITEMS). -/
def MAX_TOTAL_ITEMS : Nat := 20000

/-- Result of parsing one uploaded file. -/
structure ParsedFile where
  name : String
  data : List Row
  columns : List String
deriving DecidableEq, Repr

/-- Parsed file after the per-file processing of processFiles: empty files
are marked as errors, oversized files keep only their first
MAX_ITEMS_PER_FILE rows. -/
structure FileWithData where
  name : String
  data : List Row
  columns : List String
  ok : Bool
deriving DecidableEq, Repr

/-- Per-file step of processFiles: an empty parse result becomes an error
entry, a file with more than MAX_ITEMS_PER_FILE rows contributes only its
first MAX_ITEMS_PER_FILE rows, any other file is kept whole. -/
def capParsed (p : ParsedFile) : FileWithData :=
  if p.data.length = 0 then ⟨p.name, [], [], false⟩
  else if p.data.length > MAX_ITEMS_PER_FILE then
    ⟨p.name, p.data.take MAX_ITEMS_PER_FILE, p.columns, true⟩
  else ⟨p.name, p.data, p.columns, true⟩

/-- The processFiles handler: refuses the whole new batch when the file count
would exceed MAX_FILES, otherwise caps every parsed file. -/
def processFiles (existingCount : Nat) (files : List ParsedFile) :
    Option (List FileWithData) :=
  if existingCount + files.length > MAX_FILES then none
  else some (files.map capParsed)

/-- Files participating in the merge: successfully parsed and non-empty. -/
def validFiles (uploaded : List FileWithData) : List FileWithData :=
  uploaded.filter (fun f => f.ok && decide (0 < f.data.length))

/-- Insertion into a JavaScript Set, keeping first-insertion order. -/
def insertCol (acc : List String) (c : String) : List String :=
  if c ∈ acc then acc else acc ++ [c]

/-- Union of the column lists of all files, in order of first appearance
across the files in merge order, as built by the allColumnsSet of
handleContinue. -/
def mergedColumns (files : List FileWithData) : List String :=
  files.foldl (fun acc f => f.columns.foldl insertCol acc) []

/-- Assignment of a key in a JavaScript object: updates the entry in place
when the key exists, appends it otherwise. -/
def objSet (r : Row) (k : String) (v : Value) : Row :=
  if r.any (fun p => p.1 = k) then r.map (fun p => if p.1 = k then (k, v) else p)
  else r ++ [(k, v)]

/-- The expression row[col] ?? an empty string: a missing, null or undefined
cell becomes the empty string. -/
def jsGetOrEmptyStr (row : Row) (col : String) : Value :=
  match rowLookup row col with
  | some .empty => .str ""
  | some v => v
  | none => .str ""

/-- Normalized merged record built by handleContinue: the three batch
metadata columns first, then every merged column with the source value or an
empty string. -/
def mergedRow (allColumns : List String) (fileName : String)
    (rowIndex batchIndex : Nat) (row : Row) : Row :=
  allColumns.foldl (fun acc col => objSet acc col (jsGetOrEmptyStr row col))
    [("__source_file", .str fileName),
     ("__source_row", .num ((rowIndex : Int) + 1)),
     ("__batch_index", .num (batchIndex : Int))]

/-- Merged data of all files: every record of every file, normalized over the
merged column union and tagged with its origin. -/
def mergeData (files : List FileWithData) : List Row :=
  (files.enum.map (fun fi =>
    fi.2.data.enum.map (fun ri => mergedRow (mergedColumns files) fi.2.name ri.1 fi.1 ri.2))).flatten

/-- The handleContinue handler: refuses when no valid file exists or when the
merged table would exceed MAX_TOTAL_ITEMS, otherwise hands the merged table
and the merged column list over. -/
def handleContinue (uploaded : List FileWithData) : Option (List Row × List String) :=
  let valid := validFiles uploaded
  if valid.isEmpty then none
  else
    let allData := mergeData valid
    if allData.length > MAX_TOTAL_ITEMS then none
    else some (allData, mergedColumns valid)

/-- Reference description of first-appearance deduplication: keep each
element at its first occurrence, drop later repetitions. -/
def dedupFirst : List String → List String
  | [] => []
  | c :: cs => c :: dedupFirst (cs.filter (fun x => x ≠ c))
termination_by l => l.length
decreasing_by
  simp only [List.length_cons]
  exact Nat.lt_succ_of_le (List.length_filter_le _ _)

/-! ## Duplicate results and cross-file enhancement

The DuplicateResult record is taken from the data model of the spec; its
cross-file enhancement is embedded from scanForDuplicates in
src/components/DuplicateDetector.tsx. -/

/-- One detected duplicate group. -/
structure DuplicateResult where
  tipo : String
  valor : String
  linhas : List Nat
  similaridade : ℚ
deriving DecidableEq, Repr

/-- Duplicate group enhanced with cross-file attribution. -/
structure EnhancedDuplicateResult extends DuplicateResult where
  isCrossFile : Bool
  sourceFiles : List String
deriving DecidableEq, Repr

/-- Origin-file tag of the row at one index: the value of the
reserved source-file column when the row exists and the value is truthy,
converted to a string. -/
def tagOf (data : List Row) (i : Nat) : Option String :=
  match data[i]? with
  | some row =>
      match rowLookup row "__source_file" with
      | some v => if truthy v then some (jsString v) else none
      | none => none
  | none => none

/-- One step of collecting the involved files of a group into a JavaScript
Set: insert the origin tag of the row, keeping insertion order, skipping
rows without a truthy tag. -/
def addTag (data : List Row) (acc : List String) (i : Nat) : List String :=
  match tagOf data i with
  | some s => if s ∈ acc then acc else acc ++ [s]
  | none => acc

/-- Set of origin-file tags across the rows of a group, in first-insertion
order, as collected by scanForDuplicates. -/
def collectSourceFiles (data : List Row) (linhas : List Nat) : List String :=
  linhas.foldl (addTag data) []

/-- Cross-file enhancement of a duplicate report, embedded from
scanForDuplicates: each result keeps all its fields and gains the set of
involved source files and the cross-file flag. -/
def enhanceDuplicates (data : List Row) (found : List DuplicateResult) :
    List EnhancedDuplicateResult :=
  found.map (fun dup =>
    let files := collectSourceFiles data dup.linhas
    { toDuplicateResult := dup
      isCrossFile := decide (1 < files.length)
      sourceFiles := files })

/-! ## Fuzzy duplicate grouping

Modelled from the spec: the fuzzy phase of detect in section 4.2 (the source
module utils/dataProcessors is not among the available files). Pairwise
normalized edit-distance similarity restricted to a cheap length pre-filter;
pairs at or above the threshold (0.8 by default) are unioned into groups via
a connected-components step; each group of at least two records yields one
DuplicateResult whose similaridade is the minimum pairwise score among its
members. -/

/-- Inner loop of one row of the Levenshtein dynamic program. -/
def levRowGo (c : Char) : Nat → List Nat → List Char → List Nat
  | nj, pj :: pj1 :: prest, tj :: trest =>
      let nj1 := min (nj + 1) (min (pj1 + 1) (pj + (if tj = c then 0 else 1)))
      nj1 :: levRowGo c nj1 (pj1 :: prest) trest
  | _, _, _ => []

/-- Next row of the Levenshtein dynamic program for one further character of
the first string. -/
def levRow (c : Char) (prev : List Nat) (t : List Char) : List Nat :=
  (prev.headD 0 + 1) :: levRowGo c (prev.headD 0 + 1) prev t

/-- Levenshtein edit distance between two character lists. -/
def levenshteinChars (s t : List Char) : Nat :=
  (s.foldl (fun row c => levRow c row t) (List.range (t.length + 1))).getLastD 0

/-- Normalized string similarity in [0,1]: one minus the edit distance over
the longer length; two empty strings are fully similar. -/
def similarity (a b : String) : ℚ :=
  if max a.length b.length = 0 then 1
  else 1 - (levenshteinChars a.toList b.toList : ℚ) / (max a.length b.length : ℚ)

/-- Default similarity threshold of the fuzzy phase. -/
def defaultThreshold : ℚ := mkRat 4 5

/-- Name of the record at one index. -/
def nameAt (names : List String) (i : Nat) : String := names.getD i ""

/-- Similarity of the records at two indices. -/
def simAt (names : List String) (i j : Nat) : ℚ :=
  similarity (nameAt names i) (nameAt names j)

/-- Cheap pre-filter bounding the pairwise comparison: both lengths within
twenty percent of the longer one. -/
def lengthBucket (a b : String) : Bool :=
  decide (4 * max a.length b.length ≤ 5 * min a.length b.length)

/-- Candidate pairs of the fuzzy phase: all index pairs i smaller than j that
share the length pre-filter bucket. -/
def comparedPairs (names : List String) : List (Nat × Nat) :=
  (((List.range names.length).map (fun i =>
      ((List.range names.length).filter (fun j => i < j)).map (fun j => (i, j)))).flatten).filter
    (fun p => lengthBucket (nameAt names p.1) (nameAt names p.2))

/-- Decision whether a pair scores at or above the threshold, by integer
cross-multiplication (equivalent to the rational comparison, see
scoreAtLeast_iff). -/
def scoreAtLeast (θ : ℚ) (a b : String) : Bool :=
  if max a.length b.length = 0 then decide (θ ≤ 1)
  else decide (θ.num * (max a.length b.length : Int) ≤
    (θ.den : Int) * ((max a.length b.length : Int) - (levenshteinChars a.toList b.toList : Int)))

/-- Compared pairs scoring at or above the threshold. -/
def fuzzyEdges (names : List String) (θ : ℚ) : List (Nat × Nat) :=
  (comparedPairs names).filter (fun p => scoreAtLeast θ (nameAt names p.1) (nameAt names p.2))

/-- Union of the groups touching either endpoint of one edge: all groups
containing an endpoint are merged into a single group. -/
def unionStep (gs : List (List Nat)) (e : Nat × Nat) : List (List Nat) :=
  (gs.filter (fun g => decide (e.1 ∈ g ∨ e.2 ∈ g))).flatten ::
    gs.filter (fun g => !decide (e.1 ∈ g ∨ e.2 ∈ g))

/-- Connected components of the fuzzy phase: start from singleton groups and
union along every edge. -/
def fuzzyComponents (names : List String) (θ : ℚ) : List (List Nat) :=
  (fuzzyEdges names θ).foldl unionStep ((List.range names.length).map (fun i => [i]))

/-- Membership of two indices in one common group. -/
def sameGroup (gs : List (List Nat)) (a b : Nat) : Prop :=
  ∃ g, g ∈ gs ∧ a ∈ g ∧ b ∈ g

/-- Adjacency along one fuzzy edge, in either orientation. -/
def fuzzyAdj (names : List String) (θ : ℚ) (a b : Nat) : Prop :=
  (a, b) ∈ fuzzyEdges names θ ∨ (b, a) ∈ fuzzyEdges names θ

/-- Transitive similarity: a chain of fuzzy edges connects the two records. -/
def fuzzyConnected (names : List String) (θ : ℚ) : Nat → Nat → Prop :=
  Relation.ReflTransGen (fuzzyAdj names θ)

/-- Ascending insertion of an index. -/
def insertAsc (x : Nat) : List Nat → List Nat
  | [] => [x]
  | y :: ys => if x ≤ y then x :: y :: ys else y :: insertAsc x ys

/-- Ascending sort of the row indices of a group. -/
def sortAsc (l : List Nat) : List Nat := l.foldr insertAsc []

/-- All ordered pairs of two distinct members of a group. -/
def pairsOf (g : List Nat) : List (Nat × Nat) :=
  ((g.map (fun a => g.map (fun b => (a, b)))).flatten).filter (fun p => !decide (p.1 = p.2))

/-- Minimum pairwise similarity among the members of a group (the weakest
link). -/
def minPairSim (names : List String) (g : List Nat) : ℚ :=
  ((pairsOf g).map (fun p => simAt names p.1 p.2)).foldr min 1

/-- Fuzzy duplicate groups: every connected component with at least two
members becomes one result labelled as a similar name, with ascending row
indices and the minimum pairwise score of the group. -/
def fuzzyGroups (names : List String) (θ : ℚ) : List DuplicateResult :=
  ((fuzzyComponents names θ).filter (fun g => decide (2 ≤ g.length))).map (fun g =>
    { tipo := "Nome similar"
      valor := nameAt names ((sortAsc g).headD 0)
      linhas := sortAsc g
      similaridade := minPairSim names (sortAsc g) })

/-- Sample two-file batch used for concrete instances. -/
def sampleBatch : List FileWithData :=
  [⟨"a.xlsx", [[("Nome", Value.str "x")]], ["Nome"], true⟩,
   ⟨"b.xlsx", [[("Nome", Value.str "y")]], ["Nome"], true⟩]

/-- Merged record of the second file of the sample batch. -/
def sampleMergedRow : Row :=
  [("__source_file", Value.str "b.xlsx"), ("__source_row", Value.num 1),
   ("__batch_index", Value.num 1), ("Nome", Value.str "y")]

/-- Sample merged table rows of two origin files for the cross-file claim. -/
def sampleDupData : List Row :=
  [[("__source_file", Value.str "a.xlsx"), ("Nome", Value.str "x")],
   [("__source_file", Value.str "b.xlsx"), ("Nome", Value.str "x")]]

/-- Sample duplicate report with one group spanning both rows. -/
def sampleFound : List DuplicateResult :=
  [{ tipo := "Nome identico", valor := "x", linhas := [0, 1], similaridade := 1 }]

/-- Expected enhancement of the sample duplicate report. -/
def sampleEnhanced : EnhancedDuplicateResult :=
  { tipo := "Nome identico", valor := "x", linhas := [0, 1], similaridade := 1
    isCrossFile := true, sourceFiles := ["a.xlsx", "b.xlsx"] }

/-! ## Lemmas about the enrichment engine -/

/-- Protected cells are returned unchanged by enrichCell. -/
theorem enrichCell_protected (cfg : ColumnConfig) (abb : List (String × String))
    (v : Value) (h : cfg.isProtected = true) : (enrichCell cfg abb v).1 = v := by
  simp [enrichCell, h]

/-- Lookup in an enriched record is the enriched image of the lookup in the
input record. -/
theorem rowLookup_enrichRow (pols : List (String × ColumnConfig))
    (abb : List (String × String)) (r : Row) (col : String) :
    rowLookup (enrichRow pols abb r) col = (rowLookup r col).map (enrichValue pols abb col) := by
  induction r with
  | nil => rfl
  | cons p rest ih =>
      by_cases h : p.1 = col
      · simp [enrichRow, rowLookup, h]
      · simpa [enrichRow, rowLookup, h] using ih

/-- An enriched value of a protected column equals the input value. -/
theorem enrichValue_protected (pols : List (String × ColumnConfig))
    (abb : List (String × String)) (col : String) (v : Value)
    (h : (policyFor pols col).isProtected = true) :
    enrichValue pols abb col v = v := by
  unfold enrichValue
  by_cases hm : isMetaCol col
  · simp [hm]
  · simp [hm, enrichCell_protected _ _ _ h]

/-- A successful processData run returns exactly the cellwise-enriched table. -/
theorem processData_ok_rows (tbl : List Row) (pols : List (String × ColumnConfig))
    (abb : List (String × String)) (out : List Row) (stats : ProcessingStats)
    (h : processData tbl pols abb = .ok (out, stats)) :
    out = tbl.map (enrichRow pols abb) := by
  unfold processData at h
  by_cases hv : pols.any (fun p => invalidCfg p.2)
  · simp [hv] at h
  · simp [hv] at h
    exact h.1.symm

/-- The validity check of processData does not depend on the table. -/
theorem processData_ok_of_ok (tbl tbl' : List Row) (pols : List (String × ColumnConfig))
    (abb : List (String × String)) (out : List Row) (stats : ProcessingStats)
    (h : processData tbl pols abb = .ok (out, stats)) :
    processData tbl' pols abb =
      .ok (tbl'.map (enrichRow pols abb),
        tbl'.foldl (fun a r => addStats a (rowStats pols abb r)) zeroStats) := by
  unfold processData at h ⊢
  by_cases hv : pols.any (fun p => invalidCfg p.2)
  · simp [hv] at h
  · simp [hv]

/-- C1. For every input table, policy map and abbreviation table, and every
record and column whose policy is protected, the value of that column in the
enriched table returned by processData is identical to the value in the input
table, regardless of the configured action. -/
theorem claim1_protected_columns_unchanged (tbl : List Row)
    (pols : List (String × ColumnConfig)) (abb : List (String × String))
    (out : List Row) (stats : ProcessingStats)
    (h : processData tbl pols abb = .ok (out, stats)) :
    out.length = tbl.length ∧
    ∀ (i : Nat) (r r' : Row), tbl[i]? = some r → out[i]? = some r' →
      ∀ col, (policyFor pols col).isProtected = true →
        rowLookup r' col = rowLookup r col := by
  have hrows := processData_ok_rows tbl pols abb out stats h
  subst hrows
  refine ⟨List.length_map _ _, ?_⟩
  intro i r r' hr hr' col hprot
  rw [List.getElem?_map, hr] at hr'
  injection hr' with h2
  subst h2
  rw [rowLookup_enrichRow]
  cases hl : rowLookup r col with
  | none => rfl
  | some v => simp [enrichValue_protected pols abb col v hprot]

/-- Witness for C1 at a concrete table: a protected price column configured
with action default_all keeps its exact input value. -/
theorem claim1_witness :
    processData [[("Preco", Value.str "9,90"), ("Nome", Value.str "cx")]]
        [("Preco", ⟨Action.default_all, "", true⟩)] [("cx", "caixa")]
      = .ok ([[("Preco", Value.str "9,90"), ("Nome", Value.str "caixa")]],
          { camposPreenchidos := 0, abreviaturasCorrigidas := 1,
            camposProtegidos := 1, camposIgnorados := 0 }) ∧
    rowLookup [("Preco", Value.str "9,90"), ("Nome", Value.str "caixa")] "Preco"
      = rowLookup [("Preco", Value.str "9,90"), ("Nome", Value.str "cx")] "Preco" := by
  refine ⟨by decide, ?_⟩
  exact (claim1_protected_columns_unchanged
    [[("Preco", Value.str "9,90"), ("Nome", Value.str "cx")]]
    [("Preco", ⟨Action.default_all, "", true⟩)] [("cx", "caixa")]
    [[("Preco", Value.str "9,90"), ("Nome", Value.str "caixa")]]
    { camposPreenchidos := 0, abreviaturasCorrigidas := 1,
      camposProtegidos := 1, camposIgnorados := 0 }
    (by decide)).2 0 _ _ rfl rfl "Preco" (by decide)

/-- C2. processData fails with InvalidPolicyError exactly when some
non-protected column policy has action default_all or default_empty with an
absent or empty default value; the error is raised (as the result of the run)
rather than silently defaulted. -/
theorem claim2_invalid_policy_iff (tbl : List Row)
    (pols : List (String × ColumnConfig)) (abb : List (String × String)) :
    processData tbl pols abb = .error .invalidPolicyError ↔
      ∃ p ∈ pols, p.2.isProtected = false ∧
        (p.2.action = .default_all ∨ p.2.action = .default_empty) ∧
        p.2.defaultValue.toList.all (fun c => c.isWhitespace) = true := by
  have key : (processData tbl pols abb = .error .invalidPolicyError) ↔
      pols.any (fun p => invalidCfg p.2) = true := by
    unfold processData
    constructor
    · intro h
      by_contra hb
      rw [if_neg (by simpa using hb)] at h
      exact absurd h (by simp)
    · intro hb
      rw [if_pos hb]
  rw [key, List.any_eq_true]
  constructor
  · rintro ⟨p, hp, hinv⟩
    refine ⟨p, hp, ?_⟩
    unfold invalidCfg at hinv
    simp only [Bool.and_eq_true, Bool.or_eq_true, decide_eq_true_eq,
      Bool.not_eq_true'] at hinv
    exact ⟨hinv.1.1, hinv.1.2, hinv.2⟩
  · rintro ⟨p, hp, h1, h2, h3⟩
    refine ⟨p, hp, ?_⟩
    unfold invalidCfg
    simp only [Bool.and_eq_true, Bool.or_eq_true, decide_eq_true_eq,
      Bool.not_eq_true']
    exact ⟨⟨h1, h2⟩, h3⟩

/-! ## Lemmas for the abbreviation claim -/

/-- The rewritten segments of expandSegs are the pointwise substitution. -/
theorem expandSegs_fst (abb : List (String × String)) (segs : List Seg) :
    (expandSegs abb segs).1 = segs.map (substSeg abb) := by
  induction segs with
  | nil => rfl
  | cons sg rest ih => simp [expandSegs, ih]

/-- The substitution count of expandSegs is the number of tokens matching an
abbreviation key. -/
theorem expandSegs_snd (abb : List (String × String)) (segs : List Seg) :
    (expandSegs abb segs).2 = segs.countP (isAbbrevSeg abb) := by
  induction segs with
  | nil => rfl
  | cons sg rest ih =>
      simp only [expandSegs, List.countP_cons, ih]
      by_cases h : isAbbrevSeg abb sg <;> simp [h, Nat.add_comm]

/-- C3. Abbreviation substitution on analyze columns replaces each token that
matches a key of the abbreviation table and counts one correction per
substituted token; in particular, with table cx to caixa, the input value
"cx pequena" becomes "caixa pequena" and abreviaturasCorrigidas is exactly 1. -/
theorem claim3_abbreviation_substitution :
    (∀ abb segs, (expandSegs abb segs).1 = segs.map (substSeg abb) ∧
       (expandSegs abb segs).2 = segs.countP (isAbbrevSeg abb)) ∧
    processData [[("Nome", Value.str "cx pequena")]]
        [("Nome", ⟨Action.analyze, "", false⟩)] [("cx", "caixa")]
      = .ok ([[("Nome", Value.str "caixa pequena")]],
          { camposPreenchidos := 0, abreviaturasCorrigidas := 1,
            camposProtegidos := 0, camposIgnorados := 0 }) := by
  refine ⟨fun abb segs => ⟨expandSegs_fst abb segs, expandSegs_snd abb segs⟩, by decide⟩

/-! ## Lemmas for default_empty idempotence -/

/-- Enriching a cell of a default_empty column twice gives the value of a
single enrichment. -/
theorem enrichValue_default_empty_idem (pols : List (String × ColumnConfig))
    (abb : List (String × String)) (col : String) (v : Value)
    (h : (policyFor pols col).action = .default_empty) :
    enrichValue pols abb col (enrichValue pols abb col v) = enrichValue pols abb col v := by
  unfold enrichValue
  by_cases hm : isMetaCol col
  · simp [hm]
  · simp only [hm, if_false]
    unfold enrichCell
    by_cases hp : (policyFor pols col).isProtected
    · simp [hp]
    · simp only [hp, if_false, h]
      by_cases he : isEmptyValue v
      · simp only [he, if_true]
        by_cases he2 : isEmptyValue (Value.str (policyFor pols col).defaultValue)
        · simp [he2]
        · simp [he2]
      · simp [he]

/-- C4. Applying the default_empty action twice yields the same enriched
table as applying it once: empty cells are replaced with the default value,
non-empty cells are left unchanged, so already-filled values are never
re-defaulted. -/
theorem claim4_default_empty_idempotent :
    (∀ (cfg : ColumnConfig) (abb : List (String × String)) (v : Value),
       cfg.action = .default_empty → cfg.isProtected = false →
       ((isEmptyValue v = true → (enrichCell cfg abb v).1 = .str cfg.defaultValue) ∧
        (isEmptyValue v = false → (enrichCell cfg abb v).1 = v))) ∧
    (∀ (tbl : List Row) (pols : List (String × ColumnConfig))
       (abb : List (String × String)) (out : List Row) (stats : ProcessingStats),
       (∀ r ∈ tbl, ∀ p ∈ r, isMetaCol p.1 = false →
          (policyFor pols p.1).action = .default_empty) →
       processData tbl pols abb = .ok (out, stats) →
       ∃ stats2, processData out pols abb = .ok (out, stats2)) := by
  constructor
  · intro cfg abb v ha hp
    constructor
    · intro he; simp [enrichCell, hp, ha, he]
    · intro he; simp [enrichCell, hp, ha, he]
  · intro tbl pols abb out stats hde h
    have hrows := processData_ok_rows tbl pols abb out stats h
    have hmap : out.map (enrichRow pols abb) = out := by
      subst hrows
      rw [List.map_map]
      apply List.map_congr_left
      intro r hr
      simp only [Function.comp_apply]
      unfold enrichRow
      rw [List.map_map]
      apply List.map_congr_left
      intro p hp
      simp only [Function.comp_apply]
      congr 1
      by_cases hm : isMetaCol p.1
      · simp [enrichValue, hm]
      · exact enrichValue_default_empty_idem pols abb p.1 p.2
          (hde r hr p hp (by simpa using hm))
    exact ⟨out.foldl (fun a r => addStats a (rowStats pols abb r)) zeroStats, by
      rw [processData_ok_of_ok tbl out pols abb out stats h, hmap]⟩

/-- Witness for C4 at a concrete table: one empty and one filled cell under
default_empty policies; the second run reproduces the first output. -/
theorem claim4_witness :
    ((enrichCell ⟨Action.default_empty, "N/A", false⟩ [] (Value.str "")).1
        = Value.str "N/A") ∧
    (∃ stats2,
      processData [[("Nome", Value.str "N/A"), ("Desc", Value.str "x")]]
          [("Nome", ⟨Action.default_empty, "N/A", false⟩),
           ("Desc", ⟨Action.default_empty, "N/A", false⟩)] []
        = .ok ([[("Nome", Value.str "N/A"), ("Desc", Value.str "x")]], stats2)) := by
  constructor
  · exact ((claim4_default_empty_idempotent.1 ⟨Action.default_empty, "N/A", false⟩ []
      (Value.str "") rfl rfl).1 (by decide))
  · exact claim4_default_empty_idempotent.2
      [[("Nome", Value.str ""), ("Desc", Value.str "x")]]
      [("Nome", ⟨Action.default_empty, "N/A", false⟩),
       ("Desc", ⟨Action.default_empty, "N/A", false⟩)] []
      [[("Nome", Value.str "N/A"), ("Desc", Value.str "x")]]
      { camposPreenchidos := 1, abreviaturasCorrigidas := 0,
        camposProtegidos := 0, camposIgnorados := 0 }
      (by decide) (by decide)

/-! ## Lemmas about the batch merge -/

/-- Updating one key of a record leaves the lookup of any other key
unchanged. -/
theorem rowLookup_map_update (r : Row) (k : String) (v : Value) (col : String)
    (h : ¬ col = k) :
    rowLookup (r.map (fun p => if p.1 = k then (k, v) else p)) col = rowLookup r col := by
  induction r with
  | nil => rfl
  | cons p rest ih =>
      by_cases hp : p.1 = k
      · have hkc : ¬ (k = col) := fun hh => h hh.symm
        have hpc : ¬ (p.1 = col) := by rw [hp]; exact hkc
        simp [rowLookup, hp, hkc, hpc, ih]
      · by_cases hc : p.1 = col
        · simp [rowLookup, hp, hc, h]
        · simp [rowLookup, hp, hc, ih]

/-- Appending an entry with a different key leaves a lookup unchanged. -/
theorem rowLookup_append_ne (r : Row) (k : String) (v : Value) (col : String)
    (h : ¬ col = k) :
    rowLookup (r ++ [(k, v)]) col = rowLookup r col := by
  induction r with
  | nil =>
      have hk : ¬ k = col := fun hh => h hh.symm
      simp [rowLookup, hk]
  | cons p rest ih =>
      by_cases hc : p.1 = col
      · simp [rowLookup, hc]
      · simp [rowLookup, hc, ih]

/-- Object assignment of one key leaves the lookup of any other key
unchanged. -/
theorem rowLookup_objSet_ne (r : Row) (k : String) (v : Value) (col : String)
    (h : ¬ col = k) :
    rowLookup (objSet r k v) col = rowLookup r col := by
  unfold objSet
  by_cases ha : r.any (fun p => p.1 = k)
  · rw [if_pos ha]
    exact rowLookup_map_update r k v col h
  · rw [if_neg ha]
    exact rowLookup_append_ne r k v col h

/-- Updating a present key makes its lookup the assigned value. -/
theorem rowLookup_map_update_mem (r : Row) (k : String) (v : Value)
    (ha : r.any (fun p => p.1 = k) = true) :
    rowLookup (r.map (fun p => if p.1 = k then (k, v) else p)) k = some v := by
  induction r with
  | nil => simp at ha
  | cons p rest ih =>
      by_cases hp : p.1 = k
      · simp [rowLookup, hp]
      · have h2 : rest.any (fun p => p.1 = k) = true := by
          simpa [List.any_cons, hp] using ha
        simp [rowLookup, hp, ih h2]

/-- Appending an absent key makes its lookup the appended value. -/
theorem rowLookup_append_self (r : Row) (k : String) (v : Value)
    (ha : ¬ r.any (fun p => p.1 = k) = true) :
    rowLookup (r ++ [(k, v)]) k = some v := by
  induction r with
  | nil => simp [rowLookup]
  | cons p rest ih =>
      have hp : ¬ (p.1 = k) := by
        intro hh
        exact ha (by simp [List.any_cons, hh])
      have h2 : ¬ rest.any (fun p => p.1 = k) = true := by
        intro hh
        exact ha (by simp [List.any_cons, hh])
      simp [rowLookup, hp, ih h2]

/-- Object assignment sets the lookup of the assigned key. -/
theorem rowLookup_objSet_self (r : Row) (k : String) (v : Value) :
    rowLookup (objSet r k v) k = some v := by
  unfold objSet
  by_cases ha : r.any (fun p => p.1 = k)
  · rw [if_pos ha]
    exact rowLookup_map_update_mem r k v ha
  · rw [if_neg ha]
    exact rowLookup_append_self r k v ha

/-- A fold of object assignments over keys not containing a given key leaves
that lookup unchanged. -/
theorem rowLookup_foldl_objSet_not_mem (cols : List String) (g : String → Value)
    (r : Row) (k : String) (h : k ∉ cols) :
    rowLookup (cols.foldl (fun acc col => objSet acc col (g col)) r) k = rowLookup r k := by
  induction cols generalizing r with
  | nil => rfl
  | cons c cs ih =>
      have hk : ¬ k = c := fun hh => h (by simp [hh])
      rw [List.foldl_cons, ih (objSet r c (g c)) (fun hm => h (List.mem_cons_of_mem _ hm)),
        rowLookup_objSet_ne _ _ _ _ hk]

/-- A fold of object assignments over keys containing a given key sets that
lookup to the assigned value. -/
theorem rowLookup_foldl_objSet_mem (cols : List String) (g : String → Value)
    (r : Row) (k : String) (h : k ∈ cols) :
    rowLookup (cols.foldl (fun acc col => objSet acc col (g col)) r) k = some (g k) := by
  induction cols generalizing r with
  | nil => simp at h
  | cons c cs ih =>
      by_cases hm : k ∈ cs
      · rw [List.foldl_cons]
        exact ih _ hm
      · have hk : k = c := by
          rcases List.mem_cons.mp h with h1 | h2
          · exact h1
          · exact absurd h2 hm
        subst hk
        rw [List.foldl_cons, rowLookup_foldl_objSet_not_mem cs g _ k hm,
          rowLookup_objSet_self]

/-- The merged record keeps the three batch metadata tags when the merged
columns do not shadow the reserved names. -/
theorem mergedRow_tags (allC : List String) (nm : String) (ri bi : Nat) (row : Row)
    (h1 : "__source_file" ∉ allC) (h2 : "__source_row" ∉ allC)
    (h3 : "__batch_index" ∉ allC) :
    rowLookup (mergedRow allC nm ri bi row) "__source_file" = some (.str nm) ∧
    rowLookup (mergedRow allC nm ri bi row) "__source_row" = some (.num ((ri : Int) + 1)) ∧
    rowLookup (mergedRow allC nm ri bi row) "__batch_index" = some (.num (bi : Int)) := by
  unfold mergedRow
  refine ⟨?_, ?_, ?_⟩
  · rw [rowLookup_foldl_objSet_not_mem _ _ _ _ h1]
    rfl
  · rw [rowLookup_foldl_objSet_not_mem _ _ _ _ h2]
    rfl
  · rw [rowLookup_foldl_objSet_not_mem _ _ _ _ h3]
    rfl

/-- C7. Every merged record is tagged with its originating file identity:
the source file name, the one-based row index within its source file, and the
position of the file in the batch, provided no source file declares the
reserved metadata column names of the data model as ordinary columns. -/
theorem claim7_batch_metadata_tags (files : List FileWithData)
    (h1 : "__source_file" ∉ mergedColumns files)
    (h2 : "__source_row" ∉ mergedColumns files)
    (h3 : "__batch_index" ∉ mergedColumns files) :
    ∀ r ∈ mergeData files, ∃ (fi : Nat) (f : FileWithData) (ri : Nat) (row : Row),
      files[fi]? = some f ∧ f.data[ri]? = some row ∧
      r = mergedRow (mergedColumns files) f.name ri fi row ∧
      rowLookup r "__source_file" = some (.str f.name) ∧
      rowLookup r "__source_row" = some (.num ((ri : Int) + 1)) ∧
      rowLookup r "__batch_index" = some (.num (fi : Int)) := by
  intro r hr
  unfold mergeData at hr
  rw [List.mem_flatten] at hr
  obtain ⟨inner, hinner, hrmem⟩ := hr
  rw [List.mem_map] at hinner
  obtain ⟨fi2, hfi2, hin⟩ := hinner
  subst hin
  rw [List.mem_map] at hrmem
  obtain ⟨ri2, hri2, hr⟩ := hrmem
  subst hr
  have hf : files[fi2.1]? = some fi2.2 := by
    have := List.mk_mem_enum_iff_getElem?.mp (by simpa using hfi2)
    simpa using this
  have hrow : fi2.2.data[ri2.1]? = some ri2.2 := by
    have := List.mk_mem_enum_iff_getElem?.mp (by simpa using hri2)
    simpa using this
  obtain ⟨t1, t2, t3⟩ := mergedRow_tags (mergedColumns files) fi2.2.name ri2.1 fi2.1 ri2.2 h1 h2 h3
  exact ⟨fi2.1, fi2.2, ri2.1, ri2.2, hf, hrow, rfl, t1, t2, t3⟩

/-- Witness for C7 at a concrete two-file batch: the second merged record
carries the tags of the second file. -/
theorem claim7_witness :
    ∃ (fi : Nat) (f : FileWithData) (ri : Nat) (row : Row),
      sampleBatch[fi]? = some f ∧ f.data[ri]? = some row ∧
      sampleMergedRow = mergedRow (mergedColumns sampleBatch) f.name ri fi row ∧
      rowLookup sampleMergedRow "__source_file" = some (.str f.name) ∧
      rowLookup sampleMergedRow "__source_row" = some (.num ((ri : Int) + 1)) ∧
      rowLookup sampleMergedRow "__batch_index" = some (.num (fi : Int)) :=
  claim7_batch_metadata_tags sampleBatch (by decide) (by decide) (by decide)
    sampleMergedRow (by decide)

/-! ## Lemmas about the merged column union -/

/-- Folding the set insertion over a list appends the first-appearance
deduplication of the elements not already present. -/
theorem foldl_insertCol_eq (l : List String) (acc : List String) :
    l.foldl insertCol acc = acc ++ dedupFirst (l.filter (fun x => !decide (x ∈ acc))) := by
  induction l generalizing acc with
  | nil => simp [dedupFirst]
  | cons c cs ih =>
      by_cases h : c ∈ acc
      · rw [List.foldl_cons]
        have hins : insertCol acc c = acc := by simp [insertCol, h]
        rw [hins, ih acc]
        congr 2
        simp [List.filter_cons, h]
      · rw [List.foldl_cons]
        have hins : insertCol acc c = acc ++ [c] := by simp [insertCol, h]
        rw [hins, ih (acc ++ [c])]
        have hfe : cs.filter (fun x => !decide (x ∈ acc ++ [c]))
            = (cs.filter (fun x => !decide (x ∈ acc))).filter (fun x => !decide (x = c)) := by
          rw [List.filter_filter]
          apply List.filter_congr
          intro x _
          by_cases hx : x ∈ acc <;> by_cases hxc : x = c <;> simp [hx, hxc]
        have hfc : (c :: cs).filter (fun x => !decide (x ∈ acc))
            = c :: cs.filter (fun x => !decide (x ∈ acc)) := by
          simp [List.filter_cons, h]
        rw [hfe, hfc]
        have hd : dedupFirst (c :: cs.filter (fun x => !decide (x ∈ acc)))
            = c :: dedupFirst ((cs.filter (fun x => !decide (x ∈ acc))).filter
                (fun x => x ≠ c)) := by
          rw [dedupFirst]
        rw [hd]
        have hsame : (cs.filter (fun x => !decide (x ∈ acc))).filter (fun x => !decide (x = c))
            = (cs.filter (fun x => !decide (x ∈ acc))).filter (fun x => x ≠ c) := by
          apply List.filter_congr
          intro x _
          by_cases hxc : x = c <;> simp [hxc]
        rw [hsame, List.append_assoc]
        rfl

/-- Membership in the first-appearance deduplication. -/
theorem mem_dedupFirst (l : List String) (a : String) :
    a ∈ dedupFirst l ↔ a ∈ l := by
  induction l using dedupFirst.induct with
  | case1 => simp [dedupFirst]
  | case2 c cs ih =>
      rw [dedupFirst]
      constructor
      · intro h
        rcases List.mem_cons.mp h with h1 | h2
        · simp [h1]
        · rcases List.mem_filter.mp (ih.mp h2) with ⟨hm, _⟩
          exact List.mem_cons_of_mem _ hm
      · intro h
        rcases List.mem_cons.mp h with h1 | h2
        · simp [h1]
        · by_cases hac : a = c
          · simp [hac]
          · exact List.mem_cons_of_mem _ (ih.mpr (List.mem_filter.mpr ⟨h2, by simp [hac]⟩))

/-- The first-appearance deduplication has no duplicates. -/
theorem nodup_dedupFirst (l : List String) : (dedupFirst l).Nodup := by
  induction l using dedupFirst.induct with
  | case1 => simp [dedupFirst]
  | case2 c cs ih =>
      rw [dedupFirst]
      refine List.nodup_cons.mpr ⟨?_, ih⟩
      intro hc
      rcases List.mem_filter.mp ((mem_dedupFirst _ _).mp hc) with ⟨_, hne⟩
      simp at hne

/-- C8. The merged column list is exactly the union of the column lists of
all merged files, without loss, ordered by first appearance across the
sources in merge order, and free of duplicates. As a pure function of its
input it is identical across runs on the same input. -/
theorem claim8_merged_column_union (files : List FileWithData) :
    mergedColumns files = dedupFirst ((files.map (fun f => f.columns)).flatten) ∧
    (∀ c, c ∈ mergedColumns files ↔ ∃ f ∈ files, c ∈ f.columns) ∧
    (mergedColumns files).Nodup := by
  have key : mergedColumns files = dedupFirst ((files.map (fun f => f.columns)).flatten) := by
    unfold mergedColumns
    have h1 : ∀ (fs : List FileWithData) (acc : List String),
        fs.foldl (fun acc f => f.columns.foldl insertCol acc) acc
          = ((fs.map (fun f => f.columns)).flatten).foldl insertCol acc := by
      intro fs
      induction fs with
      | nil => intro acc; rfl
      | cons f rest ih =>
          intro acc
          rw [List.foldl_cons, ih, List.map_cons, List.flatten_cons, List.foldl_append]
    rw [h1]
    rw [foldl_insertCol_eq _ [], List.nil_append]
    congr 1
    apply List.filter_eq_self.mpr
    intro a _
    simp
  refine ⟨key, ?_, ?_⟩
  · intro c
    rw [key, mem_dedupFirst, List.mem_flatten]
    constructor
    · rintro ⟨cols, hcols, hc⟩
      rcases List.mem_map.mp hcols with ⟨f, hf, hfc⟩
      exact ⟨f, hf, hfc ▸ hc⟩
    · rintro ⟨f, hf, hc⟩
      exact ⟨f.columns, List.mem_map.mpr ⟨f, hf, rfl⟩, hc⟩
  · rw [key]
    exact nodup_dedupFirst _

/-- C9. The merge never fails: it produces one normalized record per source
record, and a record lacking a merged column (or holding a null value there)
gets the empty string for that column. -/
theorem claim9_missing_columns_recovered (files : List FileWithData) :
    (mergeData files).length = ((files.map (fun f => f.data.length)).sum) ∧
    (∀ (allC : List String) (nm : String) (ri bi : Nat) (row : Row) (col : String),
       col ∈ allC →
       (rowLookup row col = none ∨ rowLookup row col = some .empty) →
       rowLookup (mergedRow allC nm ri bi row) col = some (.str "")) := by
  constructor
  · unfold mergeData
    rw [List.length_flatten, List.map_map]
    have : (files.enum.map (List.length ∘ fun fi =>
        fi.2.data.enum.map (fun ri => mergedRow (mergedColumns files) fi.2.name ri.1 fi.1 ri.2)))
        = files.enum.map (fun fi => fi.2.data.length) := by
      apply List.map_congr_left
      intro fi _
      simp [List.enum_length]
    rw [this]
    have : files.enum.map (fun fi => fi.2.data.length)
        = (files.enum.map Prod.snd).map (fun f => f.data.length) := by
      rw [List.map_map]
      rfl
    rw [this, List.enum_map_snd]
  · intro allC nm ri bi row col hmem hval
    unfold mergedRow
    rw [rowLookup_foldl_objSet_mem _ _ _ _ hmem]
    rcases hval with h | h <;> simp [jsGetOrEmptyStr, h]

/-- Witness for C9: a record of the sample batch lacking a column of the
other file gets the empty string there. -/
theorem claim9_witness :
    ("Preco" ∈ ["Nome", "Preco"]) ∧
    rowLookup (mergedRow ["Nome", "Preco"] "b.xlsx" 0 1 [("Nome", Value.str "y")]) "Preco"
      = some (Value.str "") := by
  refine ⟨by decide, ?_⟩
  exact (claim9_missing_columns_recovered []).2 ["Nome", "Preco"] "b.xlsx" 0 1
    [("Nome", Value.str "y")] "Preco" (by decide) (Or.inl (by decide))

/-- C10. The hard input limits of the upload stage: a parsed file with more
than 1000 rows contributes only its first 1000 rows, a batch of more than 20
files is refused, and the merge is refused whenever the merged table would
exceed 20000 records. -/
theorem claim10_hard_input_limits :
    (MAX_ITEMS_PER_FILE = 1000 ∧ MAX_FILES = 20 ∧ MAX_TOTAL_ITEMS = 20000) ∧
    (∀ p : ParsedFile, p.data.length > MAX_ITEMS_PER_FILE →
       (capParsed p).data = p.data.take MAX_ITEMS_PER_FILE) ∧
    (∀ p : ParsedFile, (capParsed p).data.length ≤ MAX_ITEMS_PER_FILE) ∧
    (∀ (existingCount : Nat) (files : List ParsedFile),
       existingCount + files.length > MAX_FILES →
       processFiles existingCount files = none) ∧
    (∀ uploaded : List FileWithData,
       (mergeData (validFiles uploaded)).length > MAX_TOTAL_ITEMS →
       handleContinue uploaded = none) := by
  refine ⟨⟨rfl, rfl, rfl⟩, ?_, ?_, ?_, ?_⟩
  · intro p h
    have hne : ¬ p.data.length = 0 := by omega
    simp [capParsed, hne, h]
  · intro p
    by_cases h0 : p.data.length = 0
    · simp [capParsed, h0, MAX_ITEMS_PER_FILE]
    · by_cases h1 : p.data.length > MAX_ITEMS_PER_FILE
      · unfold capParsed
        rw [if_neg h0, if_pos h1]
        show (p.data.take MAX_ITEMS_PER_FILE).length ≤ MAX_ITEMS_PER_FILE
        simp only [List.length_take]
        omega
      · unfold capParsed
        rw [if_neg h0, if_neg h1]
        show p.data.length ≤ MAX_ITEMS_PER_FILE
        omega
  · intro existingCount files h
    unfold processFiles
    rw [if_pos h]
  · intro uploaded h
    by_cases he : (validFiles uploaded).isEmpty
    · simp only [handleContinue]
      rw [if_pos he]
    · simp only [handleContinue]
      rw [if_neg he, if_pos h]

/-- Witness for C10: a 1001-row file is capped to its first 1000 rows, a
21-file batch is refused, and a 20001-record merge is refused. -/
theorem claim10_witness :
    ((capParsed ⟨"big.xlsx", List.replicate 1001 [], ["Nome"]⟩).data
        = (List.replicate 1001 ([] : Row)).take MAX_ITEMS_PER_FILE) ∧
    processFiles 0 (List.replicate 21 ⟨"f.xlsx", [[("Nome", Value.str "x")]], ["Nome"]⟩)
        = none ∧
    handleContinue [⟨"huge.xlsx", List.replicate 20001 [], ["Nome"], true⟩] = none := by
  refine ⟨?_, ?_, ?_⟩
  · exact claim10_hard_input_limits.2.1 ⟨"big.xlsx", List.replicate 1001 [], ["Nome"]⟩
      (by simp only [MAX_ITEMS_PER_FILE, List.length_replicate]; omega)
  · exact claim10_hard_input_limits.2.2.2.1 0
      (List.replicate 21 ⟨"f.xlsx", [[("Nome", Value.str "x")]], ["Nome"]⟩)
      (by simp only [MAX_FILES, List.length_replicate]; omega)
  · apply claim10_hard_input_limits.2.2.2.2
    have hv : validFiles [⟨"huge.xlsx", List.replicate 20001 [], ["Nome"], true⟩]
        = [⟨"huge.xlsx", List.replicate 20001 [], ["Nome"], true⟩] := by
      unfold validFiles
      apply List.filter_eq_self.mpr
      intro a ha
      rw [List.mem_singleton] at ha
      subst ha
      show (true && decide (0 < (List.replicate 20001 ([] : Row)).length)) = true
      simp only [List.length_replicate]
      rfl
    rw [hv, (claim9_missing_columns_recovered _).1]
    simp only [List.map_cons, List.map_nil, List.sum_cons, List.sum_nil,
      List.length_replicate, MAX_TOTAL_ITEMS]
    omega

/-! ## Lemmas about the cross-file enhancement -/

/-- Membership after inserting one origin tag. -/
theorem mem_addTag (data : List Row) (acc : List String) (i : Nat) (s : String) :
    s ∈ addTag data acc i ↔ s ∈ acc ∨ tagOf data i = some s := by
  unfold addTag
  cases ht : tagOf data i with
  | none => simp
  | some t =>
      show (s ∈ if t ∈ acc then acc else acc ++ [t]) ↔ s ∈ acc ∨ some t = some s
      by_cases hmem : t ∈ acc
      · rw [if_pos hmem]
        constructor
        · intro h
          exact Or.inl h
        · rintro (h | h)
          · exact h
          · injection h with h2
            rw [← h2]
            exact hmem
      · rw [if_neg hmem, List.mem_append, List.mem_singleton]
        constructor
        · rintro (h | h)
          · exact Or.inl h
          · exact Or.inr (by rw [h])
        · rintro (h | h)
          · exact Or.inl h
          · injection h with h2
            exact Or.inr h2.symm

/-- Membership in the collected origin tags of a group. -/
theorem mem_foldl_addTag (data : List Row) (lin : List Nat) :
    ∀ (acc : List String) (s : String),
      s ∈ lin.foldl (addTag data) acc ↔ s ∈ acc ∨ ∃ i ∈ lin, tagOf data i = some s := by
  induction lin with
  | nil => intro acc s; simp
  | cons i rest ih =>
      intro acc s
      rw [List.foldl_cons, ih, mem_addTag]
      constructor
      · rintro ((h | h) | h)
        · exact Or.inl h
        · exact Or.inr ⟨i, by simp, h⟩
        · obtain ⟨j, hj, hjt⟩ := h
          exact Or.inr ⟨j, List.mem_cons_of_mem _ hj, hjt⟩
      · rintro (h | h)
        · exact Or.inl (Or.inl h)
        · obtain ⟨j, hj, hjt⟩ := h
          rcases List.mem_cons.mp hj with h1 | h2
          · rw [← h1]
            exact Or.inl (Or.inr hjt)
          · exact Or.inr ⟨j, h2, hjt⟩

/-- Collecting origin tags preserves freedom from duplicates. -/
theorem nodup_foldl_addTag (data : List Row) (lin : List Nat) :
    ∀ acc : List String, acc.Nodup → (lin.foldl (addTag data) acc).Nodup := by
  induction lin with
  | nil => intro acc h; exact h
  | cons i rest ih =>
      intro acc h
      rw [List.foldl_cons]
      apply ih
      unfold addTag
      cases ht : tagOf data i with
      | none => exact h
      | some t =>
          show (if t ∈ acc then acc else acc ++ [t]).Nodup
          by_cases hmem : t ∈ acc
          · rw [if_pos hmem]
            exact h
          · rw [if_neg hmem]
            exact List.Nodup.append h (List.nodup_singleton t)
              (fun a ha hat => hmem (by rwa [List.mem_singleton.mp hat] at ha))

/-- C6. The cross-file enhancement keeps every field of every duplicate
result, attaches the duplicate-free set of origin-file tags collected from
the rows listed in linhas, and sets the cross-file flag exactly when that set
has more than one element. -/
theorem claim6_cross_file_flag (data : List Row) (found : List DuplicateResult) :
    (enhanceDuplicates data found).length = found.length ∧
    (∀ (k : Nat) (e : EnhancedDuplicateResult),
       (enhanceDuplicates data found)[k]? = some e →
       found[k]? = some e.toDuplicateResult ∧
       e.sourceFiles = collectSourceFiles data e.linhas ∧
       (e.isCrossFile = true ↔ 1 < e.sourceFiles.length)) ∧
    (∀ linhas : List Nat, (collectSourceFiles data linhas).Nodup) ∧
    (∀ (linhas : List Nat) (s : String),
       s ∈ collectSourceFiles data linhas ↔ ∃ i ∈ linhas, tagOf data i = some s) := by
  refine ⟨List.length_map _ _, ?_, ?_, ?_⟩
  · intro k e he
    unfold enhanceDuplicates at he
    rw [List.getElem?_map] at he
    cases hk : found[k]? with
    | none => rw [hk] at he; simp at he
    | some dup =>
        rw [hk] at he
        injection he with he2
        subst he2
        refine ⟨?_, ?_, ?_⟩
        · rfl
        · rfl
        · show decide (1 < (collectSourceFiles data dup.linhas).length) = true ↔
            1 < (collectSourceFiles data dup.linhas).length
          exact decide_eq_true_iff
  · intro linhas
    exact nodup_foldl_addTag data linhas [] List.nodup_nil
  · intro linhas s
    unfold collectSourceFiles
    rw [mem_foldl_addTag]
    simp

/-- Witness for C6: one group whose two rows come from two distinct files is
flagged cross-file with an origin-file set of size two. -/
theorem claim6_witness :
    (sampleFound[0]? = some sampleEnhanced.toDuplicateResult ∧
     sampleEnhanced.sourceFiles = collectSourceFiles sampleDupData sampleEnhanced.linhas ∧
     (sampleEnhanced.isCrossFile = true ↔ 1 < sampleEnhanced.sourceFiles.length)) ∧
    sampleEnhanced.isCrossFile = true ∧ sampleEnhanced.sourceFiles.length = 2 := by
  refine ⟨?_, by decide, by decide⟩
  exact (claim6_cross_file_flag sampleDupData sampleFound).2.1 0 sampleEnhanced (by decide)

/-! ## Lemmas about the fuzzy connected-components step -/

/-- The elements of all groups are preserved, up to order, by one union
step. -/
theorem unionStep_flatten_perm (gs : List (List Nat)) (e : Nat × Nat) :
    List.Perm (unionStep gs e).flatten gs.flatten := by
  unfold unionStep
  rw [List.flatten_cons]
  have h1 : (gs.filter (fun g => decide (e.1 ∈ g ∨ e.2 ∈ g))).flatten
        ++ (gs.filter (fun g => !decide (e.1 ∈ g ∨ e.2 ∈ g))).flatten
      = ((gs.filter (fun g => decide (e.1 ∈ g ∨ e.2 ∈ g)))
        ++ (gs.filter (fun g => !decide (e.1 ∈ g ∨ e.2 ∈ g)))).flatten := by
    rw [List.flatten_append]
  rw [h1]
  exact List.Perm.flatten (List.filter_append_perm _ gs)

/-- One union step preserves freedom from duplicates across all groups. -/
theorem unionStep_nodup (gs : List (List Nat)) (e : Nat × Nat)
    (h : gs.flatten.Nodup) : (unionStep gs e).flatten.Nodup := by
  exact ((unionStep_flatten_perm gs e).nodup_iff).mpr h

/-- One union step keeps every element in some group. -/
theorem unionStep_total (gs : List (List Nat)) (e : Nat × Nat) (k : Nat)
    (h : ∃ g ∈ gs, k ∈ g) : ∃ g ∈ unionStep gs e, k ∈ g := by
  obtain ⟨g, hg, hk⟩ := h
  by_cases ht : e.1 ∈ g ∨ e.2 ∈ g
  · refine ⟨(gs.filter (fun g => decide (e.1 ∈ g ∨ e.2 ∈ g))).flatten,
      List.mem_cons_self _ _, ?_⟩
    rw [List.mem_flatten]
    exact ⟨g, List.mem_filter.mpr ⟨hg, by simpa using ht⟩, hk⟩
  · exact ⟨g, List.mem_cons_of_mem _
      (List.mem_filter.mpr ⟨hg, by simpa using ht⟩), hk⟩

/-- One union step never separates two elements of one group. -/
theorem unionStep_mono (gs : List (List Nat)) (e : Nat × Nat) (a b : Nat)
    (h : sameGroup gs a b) : sameGroup (unionStep gs e) a b := by
  obtain ⟨g, hg, ha, hb⟩ := h
  by_cases ht : e.1 ∈ g ∨ e.2 ∈ g
  · refine ⟨(gs.filter (fun g => decide (e.1 ∈ g ∨ e.2 ∈ g))).flatten,
      List.mem_cons_self _ _, ?_, ?_⟩
    · rw [List.mem_flatten]
      exact ⟨g, List.mem_filter.mpr ⟨hg, by simpa using ht⟩, ha⟩
    · rw [List.mem_flatten]
      exact ⟨g, List.mem_filter.mpr ⟨hg, by simpa using ht⟩, hb⟩
  · exact ⟨g, List.mem_cons_of_mem _
      (List.mem_filter.mpr ⟨hg, by simpa using ht⟩), ha, hb⟩

/-- After a union step along an edge, both endpoints share a group. -/
theorem unionStep_edge (gs : List (List Nat)) (e : Nat × Nat)
    (h1 : ∃ g ∈ gs, e.1 ∈ g) (h2 : ∃ g ∈ gs, e.2 ∈ g) :
    sameGroup (unionStep gs e) e.1 e.2 := by
  obtain ⟨g1, hg1, he1⟩ := h1
  obtain ⟨g2, hg2, he2⟩ := h2
  refine ⟨(gs.filter (fun g => decide (e.1 ∈ g ∨ e.2 ∈ g))).flatten,
    List.mem_cons_self _ _, ?_, ?_⟩
  · rw [List.mem_flatten]
    exact ⟨g1, List.mem_filter.mpr ⟨hg1, by simp [he1]⟩, he1⟩
  · rw [List.mem_flatten]
    exact ⟨g2, List.mem_filter.mpr ⟨hg2, by simp [he2]⟩, he2⟩

/-- When all groups together hold no duplicate, membership in one common
group is transitive. -/
theorem sameGroup_trans (gs : List (List Nat)) (a b c : Nat)
    (hnd : gs.flatten.Nodup) (h1 : sameGroup gs a b) (h2 : sameGroup gs b c) :
    sameGroup gs a c := by
  induction gs with
  | nil =>
      obtain ⟨g, hg, _, _⟩ := h1
      simp at hg
  | cons g rest ih =>
      rw [List.flatten_cons, List.nodup_append] at hnd
      obtain ⟨hgnd, hrestnd, hdisj⟩ := hnd
      obtain ⟨g1, hg1, ha, hb1⟩ := h1
      obtain ⟨g2, hg2, hb2, hc⟩ := h2
      rcases List.mem_cons.mp hg1 with e1 | m1
      · rcases List.mem_cons.mp hg2 with e2 | m2
        · exact ⟨g, List.mem_cons_self _ _, e1 ▸ ha, e2 ▸ hc⟩
        · exfalso
          apply hdisj (e1 ▸ hb1)
          rw [List.mem_flatten]
          exact ⟨g2, m2, hb2⟩
      · rcases List.mem_cons.mp hg2 with e2 | m2
        · exfalso
          apply hdisj (e2 ▸ hb2)
          rw [List.mem_flatten]
          exact ⟨g1, m1, hb1⟩
        · obtain ⟨g3, hg3, ha3, hc3⟩ :=
            ih hrestnd ⟨g1, m1, ha, hb1⟩ ⟨g2, m2, hb2, hc⟩
          exact ⟨g3, List.mem_cons_of_mem _ hg3, ha3, hc3⟩

/-- Folding union steps preserves a common group. -/
theorem foldl_unionStep_mono (es : List (Nat × Nat)) (gs : List (List Nat))
    (a b : Nat) (h : sameGroup gs a b) :
    sameGroup (es.foldl unionStep gs) a b := by
  induction es generalizing gs with
  | nil => exact h
  | cons e rest ih => exact ih _ (unionStep_mono gs e a b h)

/-- Folding union steps keeps every element in some group. -/
theorem foldl_unionStep_total (es : List (Nat × Nat)) (gs : List (List Nat))
    (k : Nat) (h : ∃ g ∈ gs, k ∈ g) :
    ∃ g ∈ es.foldl unionStep gs, k ∈ g := by
  induction es generalizing gs with
  | nil => exact h
  | cons e rest ih => exact ih _ (unionStep_total gs e k h)

/-- Folding union steps preserves freedom from duplicates. -/
theorem foldl_unionStep_nodup (es : List (Nat × Nat)) (gs : List (List Nat))
    (h : gs.flatten.Nodup) : (es.foldl unionStep gs).flatten.Nodup := by
  induction es generalizing gs with
  | nil => exact h
  | cons e rest ih => exact ih _ (unionStep_nodup gs e h)

/-- After folding over all edges, the endpoints of every edge share a
group. -/
theorem foldl_unionStep_edges (es : List (Nat × Nat)) (gs : List (List Nat))
    (hpres : ∀ e ∈ es, (∃ g ∈ gs, e.1 ∈ g) ∧ (∃ g ∈ gs, e.2 ∈ g)) :
    ∀ e ∈ es, sameGroup (es.foldl unionStep gs) e.1 e.2 := by
  induction es generalizing gs with
  | nil => intro e he; simp at he
  | cons e0 rest ih =>
      intro e he
      rcases List.mem_cons.mp he with h1 | h2
      · rw [h1, List.foldl_cons]
        apply foldl_unionStep_mono
        obtain ⟨hp1, hp2⟩ := hpres e0 (List.mem_cons_self _ _)
        exact unionStep_edge gs e0 hp1 hp2
      · rw [List.foldl_cons]
        apply ih (unionStep gs e0) ?_ e h2
        intro e2 he2
        obtain ⟨hp1, hp2⟩ := hpres e2 (List.mem_cons_of_mem _ he2)
        exact ⟨unionStep_total gs e0 e2.1 hp1, unionStep_total gs e0 e2.2 hp2⟩

/-- Flattening singleton groups gives back the elements. -/
theorem flatten_singletons (l : List Nat) :
    (l.map (fun i => [i])).flatten = l := by
  induction l with
  | nil => rfl
  | cons x xs ih => simp [ih]

/-- Endpoints of a compared pair are indices into the record list. -/
theorem mem_comparedPairs_lt (names : List String) (p : Nat × Nat)
    (h : p ∈ comparedPairs names) : p.1 < names.length ∧ p.2 < names.length := by
  unfold comparedPairs at h
  rcases List.mem_filter.mp h with ⟨hm, _⟩
  rw [List.mem_flatten] at hm
  obtain ⟨inner, hinner, hpm⟩ := hm
  rcases List.mem_map.mp hinner with ⟨i, hi, hin⟩
  rw [← hin] at hpm
  rcases List.mem_map.mp hpm with ⟨j, hj, hpe⟩
  rcases List.mem_filter.mp hj with ⟨hjr, _⟩
  rw [← hpe]
  exact ⟨List.mem_range.mp hi, List.mem_range.mp hjr⟩

/-- Fuzzy edges are compared pairs. -/
theorem fuzzyEdges_subset (names : List String) (θ : ℚ) (p : Nat × Nat)
    (h : p ∈ fuzzyEdges names θ) : p ∈ comparedPairs names :=
  (List.mem_filter.mp h).1

/-- Membership in an ascending insertion. -/
theorem mem_insertAsc (x a : Nat) (l : List Nat) :
    a ∈ insertAsc x l ↔ a = x ∨ a ∈ l := by
  induction l with
  | nil => simp [insertAsc]
  | cons y ys ih =>
      unfold insertAsc
      by_cases h : x ≤ y
      · rw [if_pos h]
        simp [or_comm, or_assoc, or_left_comm]
      · rw [if_neg h]
        simp [ih]
        tauto

/-- Membership in the ascending sort. -/
theorem mem_sortAsc (l : List Nat) (a : Nat) : a ∈ sortAsc l ↔ a ∈ l := by
  induction l with
  | nil => simp [sortAsc]
  | cons x xs ih =>
      unfold sortAsc at *
      rw [List.foldr_cons, mem_insertAsc, ih]
      simp

/-- Membership in the distinct pairs of a group. -/
theorem mem_pairsOf (g : List Nat) (p : Nat × Nat) :
    p ∈ pairsOf g ↔ p.1 ∈ g ∧ p.2 ∈ g ∧ ¬ p.1 = p.2 := by
  unfold pairsOf
  rw [List.mem_filter, List.mem_flatten]
  constructor
  · rintro ⟨⟨inner, hinner, hpm⟩, hne⟩
    rcases List.mem_map.mp hinner with ⟨a, ha, hin⟩
    rw [← hin] at hpm
    rcases List.mem_map.mp hpm with ⟨b, hb, hpe⟩
    rw [← hpe]
    refine ⟨ha, hb, ?_⟩
    rw [← hpe] at hne
    simpa using hne
  · rintro ⟨h1, h2, hne⟩
    refine ⟨⟨g.map (fun b => (p.1, b)), List.mem_map.mpr ⟨p.1, h1, rfl⟩, ?_⟩, by simpa using hne⟩
    exact List.mem_map.mpr ⟨p.2, h2, rfl⟩

/-- A fold of minima is bounded by every list element. -/
theorem foldr_min_le (l : List ℚ) (x : ℚ) (h : x ∈ l) : l.foldr min 1 ≤ x := by
  induction l with
  | nil => simp at h
  | cons y ys ih =>
      rcases List.mem_cons.mp h with h1 | h2
      · rw [h1, List.foldr_cons]
        exact min_le_left _ _
      · rw [List.foldr_cons]
        exact le_trans (min_le_right _ _) (ih h2)

/-- A fold of minima over a non-empty list of values at most one is attained
at some list element. -/
theorem foldr_min_mem (l : List ℚ) (hne : l ≠ []) (hle : ∀ x ∈ l, x ≤ 1) :
    l.foldr min 1 ∈ l := by
  induction l with
  | nil => exact absurd rfl hne
  | cons y ys ih =>
      cases ys with
      | nil =>
          simp only [List.foldr_cons, List.foldr_nil]
          rw [min_eq_left (hle y (by simp))]
          simp
      | cons z zs =>
          rw [List.foldr_cons]
          rcases min_choice y ((z :: zs).foldr min 1) with h | h
          · rw [h]
            simp
          · rw [h]
            exact List.mem_cons_of_mem _
              (ih (by simp) (fun x hx => hle x (List.mem_cons_of_mem _ hx)))

/-- Normalized similarity never exceeds one. -/
theorem similarity_le_one (a b : String) : similarity a b ≤ 1 := by
  unfold similarity
  by_cases h : max a.length b.length = 0
  · rw [if_pos h]
  · rw [if_neg h]
    have h0 : (0:ℚ) ≤ (levenshteinChars a.toList b.toList : ℚ) / (max a.length b.length : ℚ) :=
      div_nonneg (by positivity) (by positivity)
    linarith

/-- The integer edge decision agrees with the rational comparison of the
threshold against the similarity. -/
theorem scoreAtLeast_iff (θ : ℚ) (a b : String) :
    scoreAtLeast θ a b = true ↔ θ ≤ similarity a b := by
  unfold scoreAtLeast similarity
  by_cases h : max a.length b.length = 0
  · rw [if_pos h, if_pos h, decide_eq_true_eq]
  · rw [if_neg h, if_neg h, decide_eq_true_eq]
    have hmpos : 0 < max a.length b.length := Nat.pos_of_ne_zero h
    have hm : (0:ℚ) < (max a.length b.length : ℚ) := by exact_mod_cast hmpos
    have hden : (0:ℚ) < (θ.den : ℚ) := by exact_mod_cast Rat.den_pos θ
    have hnum : θ * (θ.den : ℚ) = (θ.num : ℚ) := by
      nth_rewrite 1 [← Rat.num_div_den θ]
      exact div_mul_cancel₀ _ (ne_of_gt hden)
    have key : (1 : ℚ) - (levenshteinChars a.toList b.toList : ℚ) / (max a.length b.length : ℚ)
        = ((max a.length b.length : ℚ) - (levenshteinChars a.toList b.toList : ℚ))
          / (max a.length b.length : ℚ) := by
      field_simp
    rw [key, le_div_iff₀ hm, ← @Int.cast_le ℚ _ _ _]
    push_cast
    rw [← hnum]
    rw [show θ * (θ.den : ℚ) * (max a.length b.length : ℚ)
        = (θ.den : ℚ) * (θ * (max a.length b.length : ℚ)) from by ring]
    exact mul_le_mul_left hden

/-- Every group of a duplicate-free family is itself duplicate-free. -/
theorem group_nodup (gs : List (List Nat)) (g : List Nat)
    (hnd : gs.flatten.Nodup) (hg : g ∈ gs) : g.Nodup := by
  induction gs with
  | nil => simp at hg
  | cons h0 rest ih =>
      rw [List.flatten_cons, List.nodup_append] at hnd
      rcases List.mem_cons.mp hg with e | m
      · exact e ▸ hnd.1
      · exact ih hnd.2.1 m

/-- C5. In the fuzzy phase, a compared pair is an edge exactly when its
similarity is at or above the threshold; transitively similar records end in
one common group of the connected-components step; and every emitted group
carries as similaridade the minimum pairwise similarity among its members,
attained at some pair. The default threshold is 0.8. -/
theorem claim5_fuzzy_grouping (names : List String) (θ : ℚ) :
    (∀ p ∈ comparedPairs names,
       (p ∈ fuzzyEdges names θ ↔ θ ≤ simAt names p.1 p.2)) ∧
    (∀ i j : Nat, i < names.length → fuzzyConnected names θ i j →
       sameGroup (fuzzyComponents names θ) i j) ∧
    (∀ r ∈ fuzzyGroups names θ,
       (∀ a ∈ r.linhas, ∀ b ∈ r.linhas, ¬ a = b → r.similaridade ≤ simAt names a b) ∧
       (∃ a, a ∈ r.linhas ∧ ∃ b, b ∈ r.linhas ∧ ¬ a = b ∧
          r.similaridade = simAt names a b)) ∧
    defaultThreshold = 4 / 5 := by
  have hinit_total : ∀ k, k < names.length →
      ∃ g ∈ (List.range names.length).map (fun i => [i]), k ∈ g := by
    intro k hk
    exact ⟨[k], List.mem_map.mpr ⟨k, List.mem_range.mpr hk, rfl⟩, by simp⟩
  have hinit_nodup : ((List.range names.length).map (fun i => [i])).flatten.Nodup := by
    rw [flatten_singletons]
    exact List.nodup_range _
  have hcomp_nodup : (fuzzyComponents names θ).flatten.Nodup :=
    foldl_unionStep_nodup _ _ hinit_nodup
  have hedges : ∀ e ∈ fuzzyEdges names θ,
      sameGroup (fuzzyComponents names θ) e.1 e.2 := by
    apply foldl_unionStep_edges
    intro e he
    have hlt := mem_comparedPairs_lt names e (fuzzyEdges_subset names θ e he)
    exact ⟨hinit_total e.1 hlt.1, hinit_total e.2 hlt.2⟩
  refine ⟨?_, ?_, ?_, ?_⟩
  · intro p hp
    constructor
    · intro hmem
      exact (scoreAtLeast_iff θ _ _).mp (List.mem_filter.mp hmem).2
    · intro hle
      exact List.mem_filter.mpr ⟨hp, (scoreAtLeast_iff θ _ _).mpr hle⟩
  · intro i j hi hconn
    induction hconn with
    | refl =>
        obtain ⟨g, hg, hig⟩ := foldl_unionStep_total (fuzzyEdges names θ) _ i
          (hinit_total i hi)
        exact ⟨g, hg, hig, hig⟩
    | tail h1 h2 ih =>
        rename_i b c
        have hbc : sameGroup (fuzzyComponents names θ) b c := by
          rcases h2 with he | he
          · exact hedges (b, c) he
          · obtain ⟨g, hg, h1g, h2g⟩ := hedges (c, b) he
            exact ⟨g, hg, h2g, h1g⟩
        exact sameGroup_trans _ i b c hcomp_nodup ih hbc
  · intro r hr
    unfold fuzzyGroups at hr
    rcases List.mem_map.mp hr with ⟨g, hgf, hre⟩
    rcases List.mem_filter.mp hgf with ⟨hgc, hglen⟩
    have hglen2 : 2 ≤ g.length := by simpa using hglen
    have hgnd : g.Nodup := group_nodup _ g hcomp_nodup hgc
    have hlin : r.linhas = sortAsc g := by rw [← hre]
    have hsim : r.similaridade = minPairSim names (sortAsc g) := by rw [← hre]
    obtain ⟨x, y, hx, hy, hxy⟩ : ∃ x y, x ∈ g ∧ y ∈ g ∧ ¬ x = y := by
      cases g with
      | nil => simp at hglen2
      | cons x ys =>
          cases ys with
          | nil => simp at hglen2
          | cons y zs =>
              refine ⟨x, y, by simp, by simp, ?_⟩
              intro hxyeq
              rcases List.nodup_cons.mp hgnd with ⟨hnx, _⟩
              exact hnx (hxyeq ▸ List.mem_cons_self _ _)
    constructor
    · intro a ha b hb hab
      rw [hsim]
      rw [hlin] at ha hb
      apply foldr_min_le
      apply List.mem_map.mpr
      exact ⟨(a, b), (mem_pairsOf _ _).mpr ⟨ha, hb, hab⟩, rfl⟩
    · have hmemxy : simAt names x y ∈
          ((pairsOf (sortAsc g)).map (fun p => simAt names p.1 p.2)) := by
        apply List.mem_map.mpr
        exact ⟨(x, y), (mem_pairsOf _ _).mpr
          ⟨(mem_sortAsc _ _).mpr hx, (mem_sortAsc _ _).mpr hy, hxy⟩, rfl⟩
      have hmm := foldr_min_mem ((pairsOf (sortAsc g)).map (fun p => simAt names p.1 p.2))
        (List.ne_nil_of_mem hmemxy) ?_
      · rcases List.mem_map.mp hmm with ⟨p, hp, hpe⟩
        rcases (mem_pairsOf _ _).mp hp with ⟨hp1, hp2, hpne⟩
        refine ⟨p.1, by rwa [hlin], p.2, by rwa [hlin], hpne, ?_⟩
        rw [hsim]
        unfold minPairSim
        rw [hpe]
      · intro v hv
        rcases List.mem_map.mp hv with ⟨p, _, hpe⟩
        rw [← hpe]
        exact similarity_le_one _ _
  · unfold defaultThreshold
    rw [Rat.mkRat_eq_div]
    norm_num

/-- Witness for C5 at concrete names: the pair at similarity exactly 0.8 is
an edge and ends in one group; the below-threshold third record does not pair
with the first. -/
theorem claim5_witness :
    ((0, 1) ∈ comparedPairs ["abcde", "abcdf", "vwxyz"]) ∧
    ((0, 1) ∈ fuzzyEdges ["abcde", "abcdf", "vwxyz"] defaultThreshold ↔
       defaultThreshold ≤ simAt ["abcde", "abcdf", "vwxyz"] 0 1) ∧
    sameGroup (fuzzyComponents ["abcde", "abcdf", "vwxyz"] defaultThreshold) 0 1 ∧
    ((0, 2) ∈ comparedPairs ["abcde", "abcdf", "vwxyz"]) ∧
    ¬ ((0, 2) ∈ fuzzyEdges ["abcde", "abcdf", "vwxyz"] defaultThreshold) := by
  have h := claim5_fuzzy_grouping ["abcde", "abcdf", "vwxyz"] defaultThreshold
  refine ⟨by decide, h.1 (0, 1) (by decide), ?_, by decide, by decide⟩
  exact h.2.1 0 1 (by decide) (Relation.ReflTransGen.single (Or.inl (by decide)))

end ProductEnricher
